import Mathlib

/-!
Shallow embedding of the stablecoin pallet (`src/lib.rs`) and of the transient
ring buffer (`src/ringbuffer.rs`).

Machine integers: the source's `Coins` is Rust `u64`; we model it as `Nat` with the
explicit bound `U64LIMIT = 2 ^ 64`.  `checked_add` / `checked_sub` return
`Option`, saturating operations clamp at `U64LIMIT - 1`, and the two unchecked
balance additions in the source (which wrap in release builds) are taken
modulo `U64LIMIT`.  `Perbill` is its `parts` field (a `Nat` up to `10 ^ 9`) and
`Fixed64` is its raw `i64` value (an `Int`, scaled by `10 ^ 9`).

Storage: each storage item of the pallet becomes a field of `St`.  The balance
map becomes an association list updated in place (first matching key), which is
the standard functional model of a substrate `StorageMap`.  Errors: substrate
commits storage writes as they happen, so an operation that fails after
writing leaves the writes behind; we therefore model dispatch results as
`Except (Err × St) St`, the error carrying the state at the moment of failure.
Rust panics (assert failures, division by zero) abort the surrounding host
execution; they are modelled by the distinguished code `Err.panicked`.
-/

namespace Stablecoin

/-- Number of values of `u64`: `2 ^ 64`. -/
def U64LIMIT : Nat := 18446744073709551616

/-- `u64::max_value()`. -/
def u64Max : Nat := U64LIMIT - 1

/-- `u64::checked_add`. -/
def checkedAdd (a b : Nat) : Option Nat :=
  if a + b < U64LIMIT then some (a + b) else none

/-- `u64::checked_sub`. -/
def checkedSub (a b : Nat) : Option Nat :=
  if b ≤ a then some (a - b) else none

/-- `u64::saturating_add`. -/
def satAdd (a b : Nat) : Nat := min (a + b) u64Max

/-- `u64::saturating_mul`. -/
def satMul (a b : Nat) : Nat := min (a * b) u64Max

/-- `Perbill::ACCURACY`. -/
def PERBILL_ACCURACY : Nat := 1000000000

/-- `Fixed64::DIV`. -/
def FIXED64_DIV : Nat := 1000000000

/-- `const BASE_UNIT: Coins = 1000`. -/
def BASE_UNIT : Nat := 1000

/-- `const COIN_SUPPLY: Coins = BASE_UNIT * 100`. -/
def COIN_SUPPLY : Nat := BASE_UNIT * 100

/-- `const SHARE_SUPPLY: u64 = 100`. -/
def SHARE_SUPPLY : Nat := 100

/-- `Perbill::from_percent(10).deconstruct()`. -/
def MINIMUM_BOND_PRICE : Nat := 100000000

/-- `const MINIMUM_BOND_PAYOUT: i64 = 1`. -/
def MINIMUM_BOND_PAYOUT : Int := 1

/-- `Perbill * u64`: `b / ACCURACY * parts + (b % ACCURACY) * parts / ACCURACY`,
exactly as the sp-arithmetic `Mul` impl computes it (none of the intermediate
products can exceed `u64` for `parts ≤ ACCURACY`). -/
def perbillMul (parts x : Nat) : Nat :=
  x / PERBILL_ACCURACY * parts + x % PERBILL_ACCURACY * parts / PERBILL_ACCURACY

/-- `Fixed64::from_natural`. -/
def fixed64FromNatural (n : Int) : Int := n * (FIXED64_DIV : Int)

/-- `Fixed64::from_rational(n, d)` for the non-negative arguments used by the
pallet: `n * DIV / d` computed in `i128` and saturated into `i64`. -/
def fixed64FromRational (n d : Nat) : Int :=
  Int.ofNat (min (n * FIXED64_DIV / d) (2 ^ 63 - 1))

/-- `Fixed64::saturated_multiply_accumulate::<u64>`: `int + self * int` with
all steps saturating, fractional part via a `Perbill` multiply. -/
def fixed64SatMulAcc (v : Int) (x : Nat) : Nat :=
  let parts : Nat := v.natAbs
  let naturalParts : Nat := parts / FIXED64_DIV
  let perbillParts : Nat := parts % FIXED64_DIV
  let n : Nat := satMul x naturalParts
  let p : Nat := perbillMul perbillParts x
  let excess : Nat := satAdd n p
  if 0 < v then satAdd x excess else x - excess

/-- The `Balance` storage map (account id to coins), as an association list
with first-match lookup and in-place first-match update (fresh keys are
appended).  Account ids and coin amounts are both plain `Nat`. -/
abbrev Balances := List (Nat × Nat)

/-- `Balance::get`: missing keys query to the default value `0`. -/
def getBal : Balances → Nat → Nat
  | [], _ => 0
  | (k, x) :: rest, a => if k = a then x else getBal rest a

/-- `Balance::insert`. -/
def setBal : Balances → Nat → Nat → Balances
  | [], a, v => [(a, v)]
  | (k, x) :: rest, a, v =>
    if k = a then (a, v) :: rest else (k, x) :: setBal rest a v

/-- `Balance::mutate(&a, |b| *b += x)`: the addition is unchecked in the
source, hence wraps modulo `2 ^ 64` in release builds. -/
def addBalWrapped (bal : Balances) (a : Nat) (x : Nat) : Balances :=
  setBal bal a ((getBal bal a + x) % U64LIMIT)

/-- Sum of all balances in the ledger. -/
def balSum (bal : Balances) : Nat := (bal.map Prod.snd).sum

/-- `struct Bid<Nat>`; `price` is the `Perbill` parts value. -/
structure Bid where
  account : Nat
  price : Nat
  price_in_coins : Nat
  quantity : Nat
deriving DecidableEq, Repr

/-- `Bid::new`. -/
def Bid.new (account : Nat) (price : Nat) (quantity : Nat) : Bid :=
  { account := account, price := price,
    price_in_coins := perbillMul price quantity, quantity := quantity }

/-- `struct Bond<Nat, BlockNumber>`. -/
structure Bond where
  account : Nat
  payout : Nat
  expiration : Nat
deriving DecidableEq, Repr

/-- `decl_error!` codes, plus `other` for the `&str` dispatch errors and
`panicked` for Rust panics (assert failure, division by zero). `BidError`
converts as in the source: `Overflow ↦ genericOverflow`,
`Underflow ↦ genericUnderflow`. -/
inductive Err where
  | insufficientBalance
  | coinOverflow
  | coinUnderflow
  | zeroPrice
  | genericOverflow
  | genericUnderflow
  | unexpected
  | panicked
  | other (msg : String)
deriving DecidableEq, Repr

/-- `Bid::remove_coins`.  `inverse_price = Ratio::new(ACCURACY, parts)` (which
reduces by the gcd, and panics if `parts = 0`), then `checked_mul` against
`Ratio(coins, 1)` (num_rational cross-reduces by `gcd coins d` and checks the
numerator product against `u64`), then `to_integer` (floor). -/
def Bid.remove_coins (bid : Bid) (coins : Nat) : Except Err (Bid × Nat) :=
  if bid.price = 0 then .error .panicked
  else
    let g := Nat.gcd PERBILL_ACCURACY bid.price
    let n := PERBILL_ACCURACY / g
    let d := bid.price / g
    let g2 := Nat.gcd coins d
    if U64LIMIT ≤ n * (coins / g2) then .error .genericOverflow
    else
      let removedQuantity := n * (coins / g2) / (d / g2)
      match checkedSub bid.price_in_coins coins with
      | none => .error .genericUnderflow
      | some pic =>
        match checkedSub bid.quantity removedQuantity with
        | none => .error .genericUnderflow
        | some q =>
          .ok ({ bid with price_in_coins := pic, quantity := q }, removedQuantity)

/-- Price of the bid at index `i`, with a default for the out-of-range case
the verified call sites never reach (`get_unchecked` in the source). -/
def priceAtD (l : List Bid) (i : Nat) : Nat := ((l[i]?).map Bid.price).getD 0

/-- The loop of Rust `slice::binary_search_by` (2019-era implementation) with
the comparator `|e| bid_price.cmp(&e.price)`: narrow `[base, base + size)`,
moving `base` to the probe whenever the comparator is not `Greater`.  The
loop shrinks `size` by at least one per iteration, so giving it `size` units
of structural fuel (the first `Nat` argument, see `bsLoop`) reproduces it
exactly while keeping the definition reducible in the kernel. -/
def bsLoopF (p : Nat) (l : List Bid) : Nat → Nat → Nat → Nat
  | 0, base, _size => base
  | fuel + 1, base, size =>
    if size ≤ 1 then base
    else
      bsLoopF p l fuel (if priceAtD l (base + size / 2) < p then base else base + size / 2)
        (size - size / 2)

/-- The binary-search loop, entered with `base = 0` and fuel `size`. -/
def bsLoop (p : Nat) (l : List Bid) (base size : Nat) : Nat :=
  bsLoopF p l size base size

/-- `binary_search_by(...).unwrap_or_else(|i| i)`: `Ok base` on an equal final
probe, otherwise `Err (base + 1)` when the bid price is below the probe and
`Err base` when it is above. -/
def insertIndex (p : Nat) (l : List Bid) : Nat :=
  if l.length = 0 then 0
  else
    let base := bsLoop p l 0 l.length
    if p < priceAtD l base then base + 1 else base

/-- `_add_bid_to`: insert at the binary-search index, then truncate to
`MaximumBids`. -/
def add_bid_to (maximumBids : Nat) (bid : Bid) (bids : List Bid) : List Bid :=
  let index := insertIndex bid.price bids
  (bids.take index ++ bid :: bids.drop index).take maximumBids

/-- Configuration constants from the `Trait` bounds (`ExpirationPeriod`,
`MaximumBids`). -/
structure Cfg where
  expirationPeriod : Nat
  maximumBids : Nat
deriving DecidableEq, Repr

/-- The pallet's storage (`decl_storage!`), plus the block number read from
the `system` pallet. -/
structure St where
  initDone : Bool
  shares : List (Nat × Nat)
  shareSupply : Nat
  balance : Balances
  coinSupply : Nat
  bonds : List Bond
  bondBids : List Bid
  blockNumber : Nat
deriving DecidableEq, Repr

instance {ε α : Type} [DecidableEq ε] [DecidableEq α] : DecidableEq (Except ε α) := fun a b =>
  match a, b with
  | .ok x, .ok y => if h : x = y then .isTrue (by rw [h]) else .isFalse (by simp [h])
  | .error x, .error y => if h : x = y then .isTrue (by rw [h]) else .isFalse (by simp [h])
  | .ok _, .error _ => .isFalse (by simp)
  | .error _, .ok _ => .isFalse (by simp)

/-- The state carried by a dispatch result; errors keep the storage written
before the failure. -/
def outSt : Except (Err × St) St → St
  | .ok s => s
  | .error (_, s) => s

/-- Whether a dispatch result is `Ok`. -/
def isOkE : Except (Err × St) St → Bool
  | .ok _ => true
  | .error _ => false

/-- `new_bond`: expiration is the current height plus `ExpirationPeriod`. -/
def new_bond (cfg : Cfg) (blockNumber : Nat) (account : Nat) (payout : Nat) : Bond :=
  { account := account, payout := payout,
    expiration := blockNumber + cfg.expirationPeriod }

/-- `init`: allocate all shares and the initial coin supply to the founder. -/
def init (s : St) (founder : Nat) : Except (Err × St) St :=
  if s.initDone then .error (.other "can only be initialized once", s)
  else
    .ok { s with
      shares := [(founder, SHARE_SUPPLY)], shareSupply := SHARE_SUPPLY,
      balance := setBal s.balance founder COIN_SUPPLY,
      coinSupply := COIN_SUPPLY, initDone := true }

/-- `transfer`: both balances are read before either write; the sender is
debited first and the recipient credited second.  (`dest` is the source's `to`,
which Lean reserves.) -/
def transfer (s : St) (sender dest : Nat) (amount : Nat) : Except (Err × St) St :=
  match checkedSub (getBal s.balance sender) amount with
  | none => .error (.other "not enough balance to transfer", s)
  | some updatedFromBalance =>
    match checkedAdd (getBal s.balance dest) amount with
    | none => .error (.other "overflow for transfer target", s)
    | some updatedToBalance =>
      .ok { s with
        balance := setBal (setBal s.balance sender updatedFromBalance) dest updatedToBalance }

/-- `add_bid`. -/
def add_bid (cfg : Cfg) (s : St) (bid : Bid) : St :=
  { s with bondBids := add_bid_to cfg.maximumBids bid s.bondBids }

/-- `bid_for_bond`.  Note that the source's `try_mutate` computes
`b.checked_sub(price_in_coins)` only to test it: the subtracted value is never
written back, so a successful bid leaves every balance unchanged. -/
def bid_for_bond (cfg : Cfg) (s : St) (who : Nat) (price : Nat) (payout : Int) :
    Except (Err × St) St :=
  if PERBILL_ACCURACY < price then
    .error (.other "price cannot be higher than 100 percent", s)
  else if price ≤ MINIMUM_BOND_PRICE then
    .error (.other "offered price is lower than the minimum", s)
  else if payout < fixed64FromNatural MINIMUM_BOND_PAYOUT then
    .error (.other "payout is lower than the minimum", s)
  else
    let payout2 := payout - fixed64FromNatural 1
    let quantity := fixed64SatMulAcc payout2 BASE_UNIT
    let price_in_coins := perbillMul price quantity
    if getBal s.balance who < price_in_coins then .error (.insufficientBalance, s)
    else .ok (add_bid cfg s (Bid.new who price quantity))

/-- `try_increase_coin_supply`. -/
def try_increase_coin_supply (s : St) (amount : Nat) : Except (Err × St) St :=
  match checkedAdd s.coinSupply amount with
  | none => .error (.coinOverflow, s)
  | some ns => .ok { s with coinSupply := ns }

/-- The `for` loop of `hand_out_coins_to_shareholders`.  The third component
records the `payout` program variable of each iteration (zero for the
shareholders skipped by the `break`).  The in-loop
`assert!(amount_payed + payout <= amount)` is the guard `payout ≤ maxPayout`
with `payed < amount`, hence can never fire and is not spelled out. -/
def handLoop (amount cps : Nat) (payExtra : Bool) (len : Nat) :
    List (Nat × Nat) → Nat → Nat → Balances → Balances × Nat × List Nat
  | [], _i, payed, bal => (bal, payed, [])
  | (acc, numShares) :: rest, i, payed, bal =>
    if amount ≤ payed then (bal, payed, List.replicate (rest.length + 1) 0)
    else
      let maxPayout := amount - payed
      let extraPayout : Nat := if payExtra && decide (i < amount % len) then 1 else 0
      let payout := min maxPayout (numShares * cps + extraPayout)
      match handLoop amount cps payExtra len rest (i + 1) (payed + payout)
          (addBalWrapped bal acc payout) with
      | (bal2, payed2, tr) => (bal2, payed2, payout :: tr)

/-- `hand_out_coins_to_shareholders`.  `amount / supply` panics in Rust when
`supply = 0`; the final `assert!(amount_payed == amount)` panics when the loop
underspends.  `CoinSupply` is increased before the loop, as in the source. -/
def hand_out_coins_to_shareholders (s : St) (amount : Nat) : Except (Err × St) St :=
  let supply := s.shareSupply
  let len := s.shares.length
  if supply = 0 then .error (.panicked, s)
  else
    let coinsPerShare := max 1 (amount / supply)
    let payExtra := decide (coinsPerShare * len < amount)
    match checkedAdd s.coinSupply amount with
    | none => .error (.coinOverflow, s)
    | some ns =>
      match handLoop amount coinsPerShare payExtra len s.shares 0 0 s.balance with
      | (bal, payed, _tr) =>
        if payed = amount then .ok { s with coinSupply := ns, balance := bal }
        else .error (.panicked, { s with coinSupply := ns, balance := bal })

/-- The `while` loop of `expand_supply`: discard expired bonds, partially pay
the front bond if it covers the remainder, otherwise pay it out fully and
continue.  The `assert!(bond.payout <= remaining)` in the last branch is that
branch's guard and can never fire. -/
def expandLoop (blockNumber : Nat) :
    List Bond → Nat → Balances → List Bond × Nat × Balances
  | [], remaining, bal => ([], remaining, bal)
  | bond :: rest, remaining, bal =>
    if remaining = 0 then (bond :: rest, remaining, bal)
    else if bond.expiration ≤ blockNumber then expandLoop blockNumber rest remaining bal
    else if remaining < bond.payout then
      ({ bond with payout := bond.payout - remaining } :: rest, 0,
        addBalWrapped bal bond.account remaining)
    else
      expandLoop blockNumber rest (remaining - bond.payout)
        (addBalWrapped bal bond.account bond.payout)

/-- `expand_supply`: `test_increase_coin_supply`, the payout loop, the supply
increase by `amount - remaining`, the `Bonds` write, then the shareholder
distribution of any remainder. -/
def expand_supply (s : St) (amount : Nat) : Except (Err × St) St :=
  match checkedAdd s.coinSupply amount with
  | none => .error (.coinOverflow, s)
  | some _ =>
    match expandLoop s.blockNumber s.bonds amount s.balance with
    | (bonds2, remaining, bal2) =>
      match try_increase_coin_supply { s with balance := bal2 } (amount - remaining) with
      | .error e => .error e
      | .ok s3 =>
        let s4 := { s3 with bonds := bonds2 }
        if 0 < remaining then hand_out_coins_to_shareholders s4 remaining
        else .ok s4

/-- The `while` loop of `contract_supply`, acting on local copies of the bid
queue and the new-bond list (no storage is written by the loop). -/
def contractLoop (cfg : Cfg) (blockNumber : Nat) :
    List Bid → Nat → List Bond → Except Err (List Bid × Nat × List Bond)
  | [], remaining, newBonds => .ok ([], remaining, newBonds)
  | bid :: rest, remaining, newBonds =>
    if remaining = 0 then .ok (bid :: rest, remaining, newBonds)
    else if remaining ≤ bid.price_in_coins then
      match bid.remove_coins remaining with
      | .error e => .error e
      | .ok (bid2, removedQuantity) =>
        let nb := newBonds ++ [new_bond cfg blockNumber bid2.account removedQuantity]
        if 0 < bid2.price_in_coins ∧ 0 < bid2.quantity then
          .ok (add_bid_to cfg.maximumBids bid2 rest, 0, nb)
        else if bid2.price_in_coins ≠ bid2.quantity then .error .unexpected
        else .ok (rest, 0, nb)
    else
      contractLoop cfg blockNumber rest (remaining - bid.price_in_coins)
        (newBonds ++ [new_bond cfg blockNumber bid.account bid.quantity])

/-- `contract_supply`: `test_decrease_coin_supply` first (underflow check and
floor of 1, the latter reported as `CoinOverflow` in the source), then the
loop, then the three storage writes, which only happen on success. -/
def contract_supply (cfg : Cfg) (s : St) (amount : Nat) : Except (Err × St) St :=
  match checkedSub s.coinSupply amount with
  | none => .error (.coinUnderflow, s)
  | some remainingSupply =>
    if remainingSupply < 1 then .error (.coinOverflow, s)
    else
      match contractLoop cfg s.blockNumber s.bondBids amount [] with
      | .error e => .error (e, s)
      | .ok (bids2, remaining, newBonds) =>
        match checkedSub amount remaining with
        | none => .error (.genericUnderflow, s)
        | some burned =>
          match checkedSub s.coinSupply burned with
          | none => .error (.genericUnderflow, s)
          | some newSupply =>
            .ok { s with
              bonds := s.bonds ++ newBonds,
              coinSupply := newSupply, bondBids := bids2 }

/-- `expand_or_contract_on_price`. -/
def expand_or_contract_on_price (cfg : Cfg) (s : St) (price : Nat) :
    Except (Err × St) St :=
  if price = 0 then .error (.zeroPrice, s)
  else if BASE_UNIT < price then
    let fraction := fixed64FromRational price BASE_UNIT - fixed64FromNatural 1
    match checkedSub (fixed64SatMulAcc fraction s.coinSupply) s.coinSupply with
    | none => .error (.genericUnderflow, s)
    | some contractBy => contract_supply cfg s contractBy
  else if price < BASE_UNIT then
    let fraction := fixed64FromRational BASE_UNIT price - fixed64FromNatural 1
    match checkedSub (fixed64SatMulAcc fraction s.coinSupply) s.coinSupply with
    | none => .error (.genericUnderflow, s)
    | some expandBy => expand_supply s expandBy
  else .ok s

/-- `init_with_shareholders`: one share each, then distribute `COIN_SUPPLY`. -/
def init_with_shareholders (s : St) (founder : Nat) (shareholders : List Nat) :
    Except (Err × St) St :=
  if s.initDone then .error (.other "can only be initialized once", s)
  else
    let shares := shareholders.map fun a => (a, 1)
    let s1 := { s with shares := shares, shareSupply := shareholders.length }
    match hand_out_coins_to_shareholders s1 COIN_SUPPLY with
    | .error e => .error e
    | .ok s2 => .ok { s2 with initDone := true }

/-- The public operations a claim sequence may perform on an initialized
state. -/
inductive Op where
  | transferOp (sender dest : Nat) (amount : Nat)
  | bidOp (who : Nat) (price : Nat) (payout : Int)
  | contractOp (amount : Nat)
  | expandOp (amount : Nat)

/-- Apply one operation; a failed dispatch leaves the storage the failure left
behind. -/
def applyOp (cfg : Cfg) (s : St) : Op → St
  | .transferOp a b m => outSt (transfer s a b m)
  | .bidOp w p q => outSt (bid_for_bond cfg s w p q)
  | .contractOp a => outSt (contract_supply cfg s a)
  | .expandOp a => outSt (expand_supply s a)

/-- Run a sequence of operations. -/
def run (cfg : Cfg) (s : St) (ops : List Op) : St := ops.foldl (applyOp cfg) s

/-- Sum of the payouts of the queued bonds that have not yet expired. -/
def bondSum (blockNumber : Nat) (bonds : List Bond) : Nat :=
  ((bonds.filter fun b => blockNumber < b.expiration).map Bond.payout).sum

/-- The conservation property of the specification: the coin supply equals the
ledger total plus the unexpired queued bond payouts. -/
def conservation (s : St) : Prop :=
  s.coinSupply = balSum s.balance + bondSum s.blockNumber s.bonds

instance (s : St) : Decidable (conservation s) := by
  unfold conservation; infer_instance

/-- The bid queue is sorted by non-increasing price from front to back. -/
def SortedByPriceDesc (l : List Bid) : Prop :=
  l.Pairwise fun a b => b.price ≤ a.price

/-- Insert a list of bids into an initially empty queue, front of the list
first. -/
def add_bids (maximumBids : Nat) (bids : List Bid) : List Bid :=
  bids.foldl (fun q b => add_bid_to maximumBids b q) []

/-- The error code of a dispatch result, if any. -/
def errCode : Except (Err × St) St → Option Err
  | .ok _ => none
  | .error (e, _) => some e

/-- The configuration of the pallet's own test runtime:
`ExpirationPeriod = 100`, `MaximumBids = 10`. -/
def testCfg : Cfg := { expirationPeriod := 100, maximumBids := 10 }

/-- Genesis storage: everything empty, block number 0. -/
def emptySt : St :=
  { initDone := false, shares := [], shareSupply := 0, balance := [],
    coinSupply := 0, bonds := [], bondBids := [], blockNumber := 0 }

/-- The state after `init` by account 1: the founder holds all 100 shares and
the whole initial supply of 100000 coins. -/
def stInitExample : St := outSt (init emptySt 1)

/-- The state after `init_with_shareholders` with accounts 1..10: one share
and 10000 coins each. -/
def stTenShareholders : St :=
  outSt (init_with_shareholders emptySt 1 [1, 2, 3, 4, 5, 6, 7, 8, 9, 10])

/-- The first bid of the contraction scenario: account 1, price 80 %,
quantity 1250 (hence `price_in_coins = 1000`). -/
def scenarioBid1 : Bid := Bid.new 1 800000000 1250

/-- The second bid of the contraction scenario: account 2, price 75 %,
quantity 2000 (hence `price_in_coins = 1500`). -/
def scenarioBid2 : Bid := Bid.new 2 750000000 2000

/-- Ten one-share shareholders with the two scenario bids queued (account 1 at
the front, as its price is higher). -/
def stScenario : St :=
  add_bid testCfg (add_bid testCfg stTenShareholders scenarioBid1) scenarioBid2

/-- A bid used for tie-order experiments: account 1, price 50 %. -/
def tieBid1 : Bid := Bid.new 1 500000000 1000

/-- A second bid with the same price as `tieBid1` but account 2. -/
def tieBid2 : Bid := Bid.new 2 500000000 1000

/-- A registry whose holdings are not one share each: account 1 holds 3 of
the 4 shares. -/
def stSharesSkewed : St :=
  { emptySt with shares := [(1, 3), (2, 1)], shareSupply := 4, initDone := true }

/-- The state bundle maintained by the amended conservation claim: the
conservation equation itself, an empty bond queue, a one-share-per-holder
registry consistent with `ShareSupply`, and a coin supply inside `u64`. -/
def GoodSt (s : St) : Prop :=
  conservation s ∧ s.bonds = [] ∧ (∀ x ∈ s.shares, x.2 = 1) ∧
  s.shareSupply = s.shares.length ∧ 0 < s.shares.length ∧ s.coinSupply < U64LIMIT

/-- The operations covered by the amended conservation claim: transfers
between distinct accounts, bond bids, and supply expansions. -/
inductive AllowedOp : Op → Prop
  | transferOp (sender dest amount : Nat) :
      sender ≠ dest → AllowedOp (.transferOp sender dest amount)
  | bidOp (who price : Nat) (payout : Int) : AllowedOp (.bidOp who price payout)
  | expandOp (amount : Nat) : AllowedOp (.expandOp amount)

end Stablecoin

namespace RingBuffer

/-- The in-memory cursor of `RingBufferTransient` together with the backing
`StorageMap`; the index space is `{0, ..., M - 1}` for `M = 2 ^ width`. -/
structure RB (Item : Type) where
  start : Nat
  stop : Nat
  map : Nat → Option Item

/-- A fresh buffer over empty storage with bounds `(0, 0)`. -/
def emptyRB (Item : Type) : RB Item := ⟨0, 0, fun _ => none⟩

/-- `Index::wrapping_add` over a modulus `M`. -/
def wrappingAdd (M a b : Nat) : Nat := (a + b) % M

/-- `push`: write at `end`, advance `end`, and advance `start` too when the
buffer was full (the oldest entry is overwritten). -/
def push (M : Nat) {Item : Type} (rb : RB Item) (item : Item) : RB Item :=
  let m2 := fun i => if i = rb.stop then some item else rb.map i
  let nextIndex := wrappingAdd M rb.stop 1
  if nextIndex = rb.start then
    { start := wrappingAdd M rb.start 1, stop := nextIndex, map := m2 }
  else
    { rb with stop := nextIndex, map := m2 }

/-- `pop`: `None` when empty, otherwise `take` the item at `start` (a missing
entry queries to the default) and advance `start`. -/
def pop (M : Nat) {Item : Type} [Inhabited Item] (rb : RB Item) : Option Item × RB Item :=
  if rb.start = rb.stop then (none, rb)
  else
    let item := (rb.map rb.start).getD default
    (some item,
      { rb with
        start := wrappingAdd M rb.start 1,
        map := fun i => if i = rb.start then none else rb.map i })

/-- `is_empty`. -/
def isEmptyRB {Item : Type} (rb : RB Item) : Bool := rb.start = rb.stop

/-- Push a list of items in order. -/
def pushAll (M : Nat) {Item : Type} (rb : RB Item) (items : List Item) : RB Item :=
  items.foldl (push M) rb

end RingBuffer

/-! ## Lemmas about the balance map -/

namespace Stablecoin

theorem getBal_setBal_self (m : Balances) (a : Nat) (v : Nat) :
    getBal (setBal m a v) a = v := by
  induction m with
  | nil => simp [setBal, getBal]
  | cons hd tl ih =>
    obtain ⟨k, x⟩ := hd
    by_cases h : k = a
    · simp [setBal, getBal, h]
    · simp [setBal, getBal, h, ih]

theorem getBal_setBal_ne (m : Balances) (a b : Nat) (v : Nat) (h : a ≠ b) :
    getBal (setBal m a v) b = getBal m b := by
  induction m with
  | nil => simp [setBal, getBal, h]
  | cons hd tl ih =>
    obtain ⟨k, x⟩ := hd
    by_cases hk : k = a
    · subst hk
      simp [setBal, getBal, h]
    · simp [setBal, getBal, hk, ih]

theorem balSum_setBal (m : Balances) (a : Nat) (v : Nat) :
    balSum (setBal m a v) + getBal m a = balSum m + v := by
  induction m with
  | nil => simp [setBal, getBal, balSum]
  | cons hd tl ih =>
    obtain ⟨k, x⟩ := hd
    by_cases h : k = a
    · simp [setBal, getBal, h, balSum]
      ring
    · simp [setBal, getBal, h, balSum] at ih ⊢
      linarith

theorem getBal_le_balSum (m : Balances) (a : Nat) :
    getBal m a ≤ balSum m := by
  induction m with
  | nil => simp [getBal, balSum]
  | cons hd tl ih =>
    obtain ⟨k, x⟩ := hd
    by_cases h : k = a
    · simp [getBal, h, balSum]
    · simp [getBal, h, balSum] at ih ⊢
      exact ih.trans (Nat.le_add_left _ x)

end Stablecoin

/-! ## Claim theorems: concrete scenarios and simple functional claims -/

namespace Stablecoin

/-- C2: self-transfer increases the sender's balance.  For an account `a`
holding `b` coins and any `m ≤ b` with `b + m` inside `u64`, `transfer` to
the sender itself succeeds and leaves the balance at `b + m`: the recipient
balance is read before the debit is written, and the credit write lands
last. -/
theorem transfer_to_self_credits (s : St) (a : Nat) (m : Nat)
    (h1 : m ≤ getBal s.balance a) (h2 : getBal s.balance a + m < U64LIMIT) :
    isOkE (transfer s a a m) = true ∧
    getBal (outSt (transfer s a a m)).balance a = getBal s.balance a + m := by
  simp only [transfer, checkedSub, checkedAdd, if_pos h1, if_pos h2]
  exact ⟨rfl, getBal_setBal_self _ _ _⟩

theorem transfer_to_self_credits_witness :
    isOkE (transfer stInitExample 1 1 42) = true ∧
    getBal (outSt (transfer stInitExample 1 1 42)).balance 1 =
      getBal stInitExample.balance 1 + 42 :=
  transfer_to_self_credits stInitExample 1 42 (by decide) (by decide)

end Stablecoin

namespace Stablecoin

/-- C3: `bid_for_bond` never charges the bidder.  Under the three validations
and a balance covering `price_in_coins`, the call succeeds, the bid is handed
to the queue-insertion routine, and the balance map is left exactly as it
was — the `checked_sub` inside `try_mutate` is computed but never stored. -/
theorem bid_for_bond_charges_nothing (cfg : Cfg) (s : St) (who : Nat)
    (price : Nat) (payout : Int)
    (h1 : price ≤ PERBILL_ACCURACY) (h2 : MINIMUM_BOND_PRICE < price)
    (h3 : fixed64FromNatural MINIMUM_BOND_PAYOUT ≤ payout)
    (h4 : perbillMul price (fixed64SatMulAcc (payout - fixed64FromNatural 1) BASE_UNIT)
          ≤ getBal s.balance who) :
    bid_for_bond cfg s who price payout =
      .ok (add_bid cfg s
        (Bid.new who price (fixed64SatMulAcc (payout - fixed64FromNatural 1) BASE_UNIT))) ∧
    (outSt (bid_for_bond cfg s who price payout)).balance = s.balance := by
  have e1 : ¬ PERBILL_ACCURACY < price := not_lt.mpr h1
  have e2 : ¬ price ≤ MINIMUM_BOND_PRICE := not_le.mpr h2
  have e3 : ¬ payout < fixed64FromNatural MINIMUM_BOND_PAYOUT := not_lt.mpr h3
  have e4 : ¬ getBal s.balance who <
      perbillMul price (fixed64SatMulAcc (payout - fixed64FromNatural 1) BASE_UNIT) :=
    not_lt.mpr h4
  have e : bid_for_bond cfg s who price payout =
      .ok (add_bid cfg s
        (Bid.new who price (fixed64SatMulAcc (payout - fixed64FromNatural 1) BASE_UNIT))) := by
    simp only [bid_for_bond, if_neg e1, if_neg e2, if_neg e3, if_neg e4]
  exact ⟨e, by rw [e]; rfl⟩

theorem bid_for_bond_charges_nothing_witness :
    bid_for_bond testCfg stInitExample 1 800000000 1250000000 =
      .ok (add_bid testCfg stInitExample
        (Bid.new 1 800000000
          (fixed64SatMulAcc ((1250000000 : Int) - fixed64FromNatural 1) BASE_UNIT))) ∧
    (outSt (bid_for_bond testCfg stInitExample 1 800000000 1250000000)).balance =
      stInitExample.balance :=
  bid_for_bond_charges_nothing testCfg stInitExample 1 800000000 1250000000
    (by decide) (by decide) (by decide) (by decide)

/-- C6: the contraction scenario.  From ten one-share shareholders, supply
100000, and the two queued bids (account 1 at 80 % for 1250 at the front,
account 2 at 75 % for 2000), `contract_supply 2000` succeeds; bid 1 is fully
consumed (its cost being 1000 = 0.8 * 1250), the two new bonds pay out
1250 = floor(1000 / 0.8) and 1333 = floor(1000 / 0.75) — the burned 2000
split 1000/1000 and scaled by each bid's price — account 2's bid alone
remains with quantity 667 and price_in_coins 500, and the supply drops by
exactly 2000 to 98000. -/
theorem contract_supply_scenario :
    isOkE (contract_supply testCfg stScenario 2000) = true ∧
    (outSt (contract_supply testCfg stScenario 2000)).bondBids =
      [{ account := 2, price := 750000000, price_in_coins := 500, quantity := 667 }] ∧
    (outSt (contract_supply testCfg stScenario 2000)).bonds =
      [{ account := 1, payout := 1250, expiration := 100 },
       { account := 2, payout := 1333, expiration := 100 }] ∧
    1250 = 1000 * PERBILL_ACCURACY / 800000000 ∧
    1333 = 1000 * PERBILL_ACCURACY / 750000000 ∧
    stScenario.coinSupply = 100000 ∧
    (outSt (contract_supply testCfg stScenario 2000)).coinSupply =
      stScenario.coinSupply - 2000 := by decide

/-- C5 (code defect): from the state `init` produces (the founder holding all
100 shares), `expand_supply 150` — no bonds queued, one shareholder, no
overflow — aborts with a panic: `hand_out_coins_to_shareholders` pays
`min (150, 100 * max (1, 150 / 100)) = 100` coins and then fails its own
`assert!(amount_payed == amount)`, instead of minting exactly 150. -/
theorem expand_supply_panics_on_founder_registry :
    errCode (expand_supply stInitExample 150) = some Err.panicked ∧
    balSum (outSt (expand_supply stInitExample 150)).balance =
      balSum stInitExample.balance + 100 := by decide

/-- C1 (counterexample): conservation fails on the code.  After `init` by
account 1, the sequence "account 1 bids 80 % for a 1250-coin payout, then
`contract_supply 1000`" burns 1000 coins but queues a 1250-coin bond while no
balance was ever charged, leaving supply 99000 against balances 100000 plus
unexpired bond payouts 1250.  A self-transfer alone also breaks the equality
(see the self-transfer claim). -/
theorem conservation_counterexample :
    ¬ conservation (run testCfg stInitExample
        [Op.bidOp 1 800000000 1250000000, Op.contractOp 1000]) ∧
    ¬ conservation (outSt (transfer stInitExample 1 1 5)) := by decide

/-- C4 (counterexample): with a registry that is not one-share-each —
account 1 holding 3 shares and account 2 holding 1, `ShareSupply = 4` —
`hand_out_coins_to_shareholders 2` succeeds but pays account 1 the whole
amount 2 and account 2 nothing: account 2 falls below the floor
`2 / 2 = 1` of the per-holder reading, and account 1 exceeds the cap
`2 / 4 + 1 = 1` of the per-share reading, so the claimed bounds fail under
either reading of "share count". -/
theorem hand_out_bounds_counterexample :
    isOkE (hand_out_coins_to_shareholders stSharesSkewed 2) = true ∧
    getBal (outSt (hand_out_coins_to_shareholders stSharesSkewed 2)).balance 1 = 2 ∧
    getBal (outSt (hand_out_coins_to_shareholders stSharesSkewed 2)).balance 2 = 0 ∧
    ¬ ((2 : Nat) / 2 ≤ 0) ∧ ¬ ((2 : Nat) ≤ 2 / 4 + 1) := by decide

/-- C8 (counterexample): equal-price insertion is not placed after the
existing equal-price entry.  Inserting a second 50 % bid into a queue holding
one 50 % bid puts the new bid at index 0, in front of the old one. -/
theorem tie_insertion_counterexample :
    add_bid_to 10 tieBid2 [tieBid1] = [tieBid2, tieBid1] ∧
    add_bid_to 10 tieBid2 [tieBid1] ≠ [tieBid1, tieBid2] := by decide

/-- C8 (amended): the binary search returns an index inside a run of equal
prices, not after it; in particular, against a single equal-price entry the
final probe compares equal at index 0 and the new bid is inserted at the very
front. -/
theorem tie_insertion_goes_in_front (m : Nat) (b1 b2 : Bid)
    (h : b2.price = b1.price) :
    add_bid_to m b2 [b1] = [b2, b1].take m := by
  simp [add_bid_to, insertIndex, bsLoop, bsLoopF, priceAtD, h]

theorem tie_insertion_goes_in_front_witness :
    add_bid_to 10 tieBid2 [tieBid1] = [tieBid2, tieBid1].take 10 :=
  tie_insertion_goes_in_front 10 tieBid1 tieBid2 (by decide)

end Stablecoin

namespace Stablecoin

theorem contract_error_preserves (cfg : Cfg) (s : St) (amount : Nat) (e : Err) (s2 : St)
    (h : contract_supply cfg s amount = .error (e, s2)) : s2 = s := by
  cases hsub : checkedSub s.coinSupply amount with
  | none => simp only [contract_supply, hsub] at h; cases h; rfl
  | some remainingSupply =>
    by_cases hfloor : remainingSupply < 1
    · simp only [contract_supply, hsub, if_pos hfloor] at h; cases h; rfl
    · cases hloop : contractLoop cfg s.blockNumber s.bondBids amount [] with
      | error e2 =>
        simp only [contract_supply, hsub, if_neg hfloor, hloop] at h; cases h; rfl
      | ok triple =>
        obtain ⟨bids2, remaining, newBonds⟩ := triple
        cases hb : checkedSub amount remaining with
        | none =>
          simp only [contract_supply, hsub, if_neg hfloor, hloop, hb] at h; cases h; rfl
        | some burned =>
          cases hn : checkedSub s.coinSupply burned with
          | none =>
            simp only [contract_supply, hsub, if_neg hfloor, hloop, hb, hn] at h
            cases h; rfl
          | some newSupply =>
            simp only [contract_supply, hsub, if_neg hfloor, hloop, hb, hn] at h
            cases h

end Stablecoin

namespace Stablecoin

/-- The expansion loop can only spend `remaining`, never increase it. -/
theorem expandLoop_remaining_le (blockNumber : Nat) :
    ∀ (bonds : List Bond) (remaining : Nat) (bal : Balances),
      (expandLoop blockNumber bonds remaining bal).2.1 ≤ remaining := by
  intro bonds
  induction bonds with
  | nil => intro remaining bal; simp [expandLoop]
  | cons bond rest ih =>
    intro remaining bal
    by_cases h0 : remaining = 0
    · simp [expandLoop, h0]
    · by_cases h1 : bond.expiration ≤ blockNumber
      · simpa [expandLoop, h0, h1] using ih remaining bal
      · by_cases h2 : remaining < bond.payout
        · simp [expandLoop, h0, h1, h2]
        · have := ih (remaining - bond.payout) (addBalWrapped bal bond.account bond.payout)
          simp only [expandLoop, if_neg h0, if_neg h1, if_neg h2]
          omega

theorem hand_out_error_code (s : St) (amount : Nat) (e : Err) (s2 : St)
    (hfit : s.coinSupply + amount < U64LIMIT)
    (h : hand_out_coins_to_shareholders s amount = .error (e, s2)) : e = .panicked := by
  by_cases hsup : s.shareSupply = 0
  · simp only [hand_out_coins_to_shareholders, if_pos hsup] at h
    cases h; rfl
  · have hadd : checkedAdd s.coinSupply amount = some (s.coinSupply + amount) := by
      simp [checkedAdd, hfit]
    cases hhl : handLoop amount (max 1 (amount / s.shareSupply))
        (decide (max 1 (amount / s.shareSupply) * s.shares.length < amount))
        s.shares.length s.shares 0 0 s.balance with
    | mk balp pp =>
      obtain ⟨payed, tr⟩ := pp
      simp only [hand_out_coins_to_shareholders, if_neg hsup, hadd, hhl] at h
      by_cases hpay : payed = amount
      · rw [if_pos hpay] at h; cases h
      · rw [if_neg hpay] at h; cases h; rfl

theorem expand_nonpanic_error_preserves (s : St) (amount : Nat) (e : Err) (s2 : St)
    (h : expand_supply s amount = .error (e, s2)) : e = .panicked ∨ s2 = s := by
  cases hadd : checkedAdd s.coinSupply amount with
  | none =>
    simp only [expand_supply, hadd] at h; cases h; exact Or.inr rfl
  | some total =>
    have hlim : s.coinSupply + amount < U64LIMIT := by
      by_contra hc
      simp [checkedAdd, hc] at hadd
    cases hloop : expandLoop s.blockNumber s.bonds amount s.balance with
    | mk bonds2 rp =>
      obtain ⟨remaining, bal2⟩ := rp
      have hr : remaining ≤ amount := by
        have h0 := expandLoop_remaining_le s.blockNumber s.bonds amount s.balance
        rw [hloop] at h0; exact h0
      have hx : s.coinSupply + (amount - remaining) < U64LIMIT := by omega
      have hinc : checkedAdd ({ s with balance := bal2 } : St).coinSupply (amount - remaining) =
          some (s.coinSupply + (amount - remaining)) := by
        simp only [checkedAdd]
        simp [hx]
      simp only [expand_supply, hadd, hloop, try_increase_coin_supply, hinc] at h
      by_cases hrem : 0 < remaining
      · rw [if_pos hrem] at h
        refine Or.inl (hand_out_error_code _ _ _ _ ?_ h)
        show s.coinSupply + (amount - remaining) + remaining < U64LIMIT
        omega
      · rw [if_neg hrem] at h
        cases h

end Stablecoin

namespace Stablecoin

/-- C10: error atomicity of the supply operations.  `expand_or_contract_on_price`
with price 0 fails with `ZeroPrice` and mutates nothing; every error return of
`contract_supply` leaves coin supply, bid queue and bond queue exactly as they
were (all its storage writes come after its last fallible step); and every
error return of `expand_supply` likewise preserves the state — the only
failure that can strike after `expand_supply` has begun writing is the
`assert!` panic inside the shareholder distribution, which is not an error
return but a host abort (`Err.panicked`). -/
theorem supply_errors_mutate_nothing :
    (∀ (cfg : Cfg) (s : St),
      expand_or_contract_on_price cfg s 0 = .error (.zeroPrice, s)) ∧
    (∀ (cfg : Cfg) (s : St) (amount : Nat) (e : Err) (s2 : St),
      contract_supply cfg s amount = .error (e, s2) → s2 = s) ∧
    (∀ (s : St) (amount : Nat) (e : Err) (s2 : St),
      expand_supply s amount = .error (e, s2) → e = .panicked ∨ s2 = s) :=
  ⟨fun _cfg s => by simp [expand_or_contract_on_price],
   contract_error_preserves, expand_nonpanic_error_preserves⟩

theorem supply_errors_mutate_nothing_witness :
    expand_or_contract_on_price testCfg stInitExample 0 =
      .error (.zeroPrice, stInitExample) ∧
    outSt (contract_supply testCfg stInitExample 200000) = stInitExample := by
  constructor
  · exact supply_errors_mutate_nothing.1 testCfg stInitExample
  · have h : contract_supply testCfg stInitExample 200000 =
        .error (Err.coinUnderflow, stInitExample) := by decide
    have h2 := supply_errors_mutate_nothing.2.1 testCfg stInitExample 200000
      Err.coinUnderflow stInitExample h
    rw [h, outSt, h2]

end Stablecoin

namespace RingBuffer

/-- Pushing fewer items than the index cardinality `M` onto a fresh buffer
never wraps: the bounds are `(0, n)` and slot `i` holds the `i`-th item. -/
theorem pushAll_no_wrap {Item : Type} (M : Nat) (xs : List Item) (h : xs.length < M) :
    (pushAll M (emptyRB Item) xs).start = 0 ∧
    (pushAll M (emptyRB Item) xs).stop = xs.length ∧
    ∀ i : Nat, (pushAll M (emptyRB Item) xs).map i = xs[i]? := by
  induction xs using List.reverseRecOn with
  | nil => simp [pushAll, emptyRB]
  | append_singleton ys x ih =>
    have hlen : ys.length + 1 < M := by simpa using h
    obtain ⟨ih1, ih2, ih3⟩ := ih (by omega)
    have hfold : pushAll M (emptyRB Item) (ys ++ [x]) =
        push M (pushAll M (emptyRB Item) ys) x := by
      simp [pushAll, List.foldl_append]
    have hnext : wrappingAdd M (pushAll M (emptyRB Item) ys).stop 1 = ys.length + 1 := by
      rw [ih2, wrappingAdd, Nat.mod_eq_of_lt (by omega)]
    have hne : wrappingAdd M (pushAll M (emptyRB Item) ys).stop 1 ≠
        (pushAll M (emptyRB Item) ys).start := by
      rw [hnext, ih1]; omega
    rw [hfold]
    unfold push
    simp only [if_neg hne]
    refine ⟨ih1, by simpa using hnext, fun i => ?_⟩
    by_cases hi : i = (pushAll M (emptyRB Item) ys).stop
    · rw [if_pos hi, hi, ih2, List.getElem?_concat_length]
    · rw [if_neg hi, ih3 i]
      rw [ih2] at hi
      by_cases hlt : i < ys.length
      · rw [List.getElem?_append, if_pos hlt]
      · rw [List.getElem?_eq_none (by omega), List.getElem?_eq_none (by simp; omega)]

end RingBuffer

namespace RingBuffer

/-- `pop` on a non-empty buffer: return the item at `start` and advance
`start` modulo `M`, removing the storage entry. -/
theorem pop_spec {Item : Type} [Inhabited Item] (M : Nat) (rb : RB Item)
    (h : ¬ rb.start = rb.stop) :
    pop M rb = (some ((rb.map rb.start).getD default),
      { rb with
        start := wrappingAdd M rb.start 1,
        map := fun i => if i = rb.start then none else rb.map i }) := by
  unfold pop
  rw [if_neg h]

/-- C9: ring-buffer wraparound.  Over an index type of width `w ≥ 2` (the
source instantiates the widths 8, 16, 32 and 64), pushing
`Index::MAX + 1 = 2 ^ w` items into a fresh buffer leaves the bounds at
`(1, 0)` — `start` has wrapped once past `end` — and the next two pops return
the items pushed at logical positions 2 and 3, in that order. -/
theorem wraparound_pushes_then_pops {Item : Type} [Inhabited Item] (w : Nat) (hw : 2 ≤ w)
    (xs : List Item) (hlen : xs.length = 2 ^ w) :
    (pushAll (2 ^ w) (emptyRB Item) xs).start = 1 ∧
    (pushAll (2 ^ w) (emptyRB Item) xs).stop = 0 ∧
    (pop (2 ^ w) (pushAll (2 ^ w) (emptyRB Item) xs)).1 = xs[1]? ∧
    (pop (2 ^ w) (pop (2 ^ w) (pushAll (2 ^ w) (emptyRB Item) xs)).2).1 = xs[2]? := by
  set M := 2 ^ w with hM
  have hM4 : 4 ≤ M := by
    calc 4 = 2 ^ 2 := by norm_num
    _ ≤ 2 ^ w := Nat.pow_le_pow_right (by norm_num) hw
  rcases List.eq_nil_or_concat xs with hnil | ⟨ys, x, hxs⟩
  · subst hnil; simp at hlen; omega
  subst hxs
  rw [List.concat_eq_append] at hlen ⊢
  have hys : ys.length = M - 1 := by simp at hlen; omega
  obtain ⟨ih1, ih2, ih3⟩ := pushAll_no_wrap M ys (by omega)
  have hfold : pushAll M (emptyRB Item) (ys ++ [x]) =
      push M (pushAll M (emptyRB Item) ys) x := by
    simp [pushAll, List.foldl_append]
  have hnext : wrappingAdd M (pushAll M (emptyRB Item) ys).stop 1 =
      (pushAll M (emptyRB Item) ys).start := by
    have hm : ys.length + 1 = M := by omega
    rw [ih2, ih1, wrappingAdd, hm, Nat.mod_self]
  -- the final push wraps: bounds become (1, 0)
  have hrb : pushAll M (emptyRB Item) (ys ++ [x]) =
      { start := 1, stop := 0,
        map := fun i => if i = (pushAll M (emptyRB Item) ys).stop then some x
          else (pushAll M (emptyRB Item) ys).map i } := by
    rw [hfold]
    unfold push
    rw [if_pos hnext]
    have h1 : wrappingAdd M (pushAll M (emptyRB Item) ys).start 1 = 1 := by
      rw [ih1, wrappingAdd]
      exact Nat.mod_eq_of_lt (by omega)
    rw [h1, hnext, ih1]
  have hstart : (pushAll M (emptyRB Item) (ys ++ [x])).start = 1 := by rw [hrb]
  have hstop : (pushAll M (emptyRB Item) (ys ++ [x])).stop = 0 := by rw [hrb]
  -- slot contents after the final push, at the two indices the pops read
  have hmap : ∀ i : Nat, i < M - 1 →
      (pushAll M (emptyRB Item) (ys ++ [x])).map i = ys[i]? := by
    intro i hi
    rw [hrb]
    simp only [ih2]
    rw [if_neg (by omega), ih3]
  have hv1 : (pushAll M (emptyRB Item) (ys ++ [x])).map 1 = (ys ++ [x])[1]? := by
    rw [hmap 1 (by omega), List.getElem?_append, if_pos (by omega)]
  have hv2 : (pushAll M (emptyRB Item) (ys ++ [x])).map 2 = (ys ++ [x])[2]? := by
    rw [hmap 2 (by omega), List.getElem?_append, if_pos (by omega)]
  obtain ⟨v1, hsome1⟩ : ∃ v, (ys ++ [x])[1]? = some v :=
    ⟨_, List.getElem?_eq_getElem (by simp; omega)⟩
  obtain ⟨v2, hsome2⟩ : ∃ v, (ys ++ [x])[2]? = some v :=
    ⟨_, List.getElem?_eq_getElem (by simp; omega)⟩
  have hne1 : ¬ (pushAll M (emptyRB Item) (ys ++ [x])).start =
      (pushAll M (emptyRB Item) (ys ++ [x])).stop := by
    rw [hstart, hstop]; omega
  have hpop1 := pop_spec M (pushAll M (emptyRB Item) (ys ++ [x])) hne1
  refine ⟨hstart, hstop, ?_, ?_⟩
  · rw [hpop1]
    rw [hstart, hv1, hsome1]
    rfl
  · have hR2start : (pop M (pushAll M (emptyRB Item) (ys ++ [x]))).2.start = 2 := by
      rw [hpop1]
      show wrappingAdd M (pushAll M (emptyRB Item) (ys ++ [x])).start 1 = 2
      rw [hstart, wrappingAdd]
      exact Nat.mod_eq_of_lt (by omega)
    have hR2stop : (pop M (pushAll M (emptyRB Item) (ys ++ [x]))).2.stop = 0 := by
      rw [hpop1]
      exact hstop
    have hR2map : (pop M (pushAll M (emptyRB Item) (ys ++ [x]))).2.map 2 = some v2 := by
      rw [hpop1]
      show (if 2 = (pushAll M (emptyRB Item) (ys ++ [x])).start then none
        else (pushAll M (emptyRB Item) (ys ++ [x])).map 2) = some v2
      rw [hstart, if_neg (by omega), hv2, hsome2]
    have hne2 : ¬ (pop M (pushAll M (emptyRB Item) (ys ++ [x]))).2.start =
        (pop M (pushAll M (emptyRB Item) (ys ++ [x]))).2.stop := by
      rw [hR2start, hR2stop]; omega
    rw [pop_spec M (pop M (pushAll M (emptyRB Item) (ys ++ [x]))).2 hne2]
    rw [hR2start, hR2map, hsome2]
    rfl

theorem wraparound_pushes_then_pops_witness :
    (pushAll (2 ^ 2) (emptyRB Nat) [10, 20, 30, 40]).start = 1 ∧
    (pushAll (2 ^ 2) (emptyRB Nat) [10, 20, 30, 40]).stop = 0 ∧
    (pop (2 ^ 2) (pushAll (2 ^ 2) (emptyRB Nat) [10, 20, 30, 40])).1 = [10, 20, 30, 40][1]? ∧
    (pop (2 ^ 2) (pop (2 ^ 2) (pushAll (2 ^ 2) (emptyRB Nat) [10, 20, 30, 40])).2).1 =
      [10, 20, 30, 40][2]? :=
  wraparound_pushes_then_pops 2 (by norm_num) [10, 20, 30, 40] (by norm_num)

end RingBuffer

namespace Stablecoin

theorem priceAtD_eq_get (l : List Bid) (i : Nat) (h : i < l.length) :
    priceAtD l i = (l.get ⟨i, h⟩).price := by
  simp [priceAtD, List.getElem?_eq_getElem h]

theorem sorted_priceAtD (l : List Bid) (hs : SortedByPriceDesc l) (i j : Nat)
    (hij : i ≤ j) (hj : j < l.length) : priceAtD l j ≤ priceAtD l i := by
  have hi : i < l.length := lt_of_le_of_lt hij hj
  rcases Nat.lt_or_ge i j with hlt | hge
  · have := (List.pairwise_iff_get.mp hs) ⟨i, hi⟩ ⟨j, hj⟩ hlt
    rw [priceAtD_eq_get l i hi, priceAtD_eq_get l j hj]
    exact this
  · have : i = j := le_antisymm hij hge
    subst this
    exact le_refl _

theorem bsLoopF_spec (p : Nat) (l : List Bid) (hs : SortedByPriceDesc l) :
    ∀ (fuel base size : Nat), size ≤ fuel → 1 ≤ size → base + size ≤ l.length →
    (∀ j, j < base → p ≤ priceAtD l j) →
    (∀ j, base + size ≤ j → j < l.length → priceAtD l j < p) →
    base ≤ bsLoopF p l fuel base size ∧
    bsLoopF p l fuel base size < l.length ∧
    (∀ j, j < bsLoopF p l fuel base size → p ≤ priceAtD l j) ∧
    (∀ j, bsLoopF p l fuel base size + 1 ≤ j → j < l.length → priceAtD l j < p) := by
  intro fuel
  induction fuel with
  | zero => intro base size hf h1 _ _ _; omega
  | succ fuel ih =>
    intro base size hf h1 hlen hleft hright
    by_cases hsz : size ≤ 1
    · have hsz1 : size = 1 := by omega
      simp only [bsLoopF, if_pos hsz]
      refine ⟨le_refl _, by omega, hleft, ?_⟩
      intro j hj1 hj2
      exact hright j (by omega) hj2
    · simp only [bsLoopF, if_neg hsz]
      have hhalf1 : 1 ≤ size / 2 := by omega
      have hhalf2 : size / 2 < size := by omega
      have hmid : base + size / 2 < l.length := by omega
      by_cases hc : priceAtD l (base + size / 2) < p
      · rw [if_pos hc]
        refine ih base (size - size / 2) (by omega) (by omega) (by omega) hleft ?_
        intro j hj1 hj2
        have hmj : base + size / 2 ≤ j := by omega
        exact lt_of_le_of_lt (sorted_priceAtD l hs (base + size / 2) j hmj hj2) hc
      · rw [if_neg hc]
        push_neg at hc
        have hL : ∀ j, j < base + size / 2 → p ≤ priceAtD l j := by
          intro j hj
          exact le_trans hc (sorted_priceAtD l hs j (base + size / 2) (by omega) hmid)
        have hR : ∀ j, base + size / 2 + (size - size / 2) ≤ j → j < l.length →
            priceAtD l j < p := by
          intro j hj1 hj2
          exact hright j (by omega) hj2
        obtain ⟨c1, c2, c3, c4⟩ :=
          ih (base + size / 2) (size - size / 2) (by omega) (by omega) (by omega) hL hR
        exact ⟨by omega, c2, c3, c4⟩

/-- The index `_add_bid_to` inserts at splits a price-sorted queue: everything
before it has price at least the bid's, everything at or after it has price at
most the bid's. -/
theorem insertIndex_spec (p : Nat) (l : List Bid) (hs : SortedByPriceDesc l) :
    insertIndex p l ≤ l.length ∧
    (∀ j, j < insertIndex p l → p ≤ priceAtD l j) ∧
    (∀ j, insertIndex p l ≤ j → j < l.length → priceAtD l j ≤ p) := by
  by_cases hnil : l.length = 0
  · simp only [insertIndex, if_pos hnil]
    exact ⟨by omega, fun j hj => by omega, fun j hj1 hj2 => by omega⟩
  · obtain ⟨hb1, hb2, hb3, hb4⟩ := bsLoopF_spec p l hs l.length 0 l.length
      (le_refl _) (by omega) (by omega) (fun j hj => by omega) (fun j hj1 hj2 => by omega)
    simp only [insertIndex, if_neg hnil, bsLoop]
    by_cases hc : p < priceAtD l (bsLoopF p l l.length 0 l.length)
    · rw [if_pos hc]
      refine ⟨by omega, ?_, ?_⟩
      · intro j hj
        rcases Nat.lt_or_ge j (bsLoopF p l l.length 0 l.length) with h | h
        · exact hb3 j h
        · have : j = bsLoopF p l l.length 0 l.length := by omega
          subst this
          exact le_of_lt hc
      · intro j hj1 hj2
        exact le_of_lt (hb4 j hj1 hj2)
    · rw [if_neg hc]
      push_neg at hc
      refine ⟨by omega, hb3, ?_⟩
      intro j hj1 hj2
      rcases Nat.lt_or_ge j (bsLoopF p l l.length 0 l.length + 1) with h | h
      · have : j = bsLoopF p l l.length 0 l.length := by omega
        subst this
        exact hc
      · exact le_of_lt (hb4 j h hj2)

/-- Inserting a bid at the binary-search index and truncating preserves the
non-increasing price order. -/
theorem add_bid_to_sorted (m : Nat) (bid : Bid) (l : List Bid)
    (hs : SortedByPriceDesc l) : SortedByPriceDesc (add_bid_to m bid l) := by
  obtain ⟨hle, hpre, hpost⟩ := insertIndex_spec bid.price l hs
  have hins : SortedByPriceDesc
      (l.take (insertIndex bid.price l) ++ bid :: l.drop (insertIndex bid.price l)) := by
    rw [SortedByPriceDesc, List.pairwise_append]
    refine ⟨List.Pairwise.sublist (List.take_sublist _ _) hs, ?_, ?_⟩
    · rw [List.pairwise_cons]
      constructor
      · intro y hy
        obtain ⟨j, hj, hjy⟩ := List.mem_iff_getElem.mp hy
        have hjl : insertIndex bid.price l + j < l.length := by
          have := l.length_drop (insertIndex bid.price l)
          omega
        have : y.price = priceAtD l (insertIndex bid.price l + j) := by
          rw [priceAtD_eq_get l _ hjl, ← hjy, List.getElem_drop]
          rfl
        rw [this]
        exact hpost _ (by omega) hjl
      · exact List.Pairwise.sublist (List.drop_sublist _ _) hs
    · intro x hx y hy
      obtain ⟨j, hj, hjx⟩ := List.mem_iff_getElem.mp hx
      have hjt : j < insertIndex bid.price l := by
        have := l.length_take (insertIndex bid.price l)
        omega
      have hjl : j < l.length := by omega
      have hx2 : bid.price ≤ x.price := by
        have : x.price = priceAtD l j := by
          rw [priceAtD_eq_get l j hjl, ← hjx, List.getElem_take]
          rfl
        rw [this]
        exact hpre j hjt
      rcases List.mem_cons.mp hy with hy1 | hy2
      · subst hy1; exact hx2
      · obtain ⟨k, hk, hky⟩ := List.mem_iff_getElem.mp hy2
        have hkl : insertIndex bid.price l + k < l.length := by
          have := l.length_drop (insertIndex bid.price l)
          omega
        have : y.price = priceAtD l (insertIndex bid.price l + k) := by
          rw [priceAtD_eq_get l _ hkl, ← hky, List.getElem_drop]
          rfl
        rw [this]
        exact le_trans (hpost _ (by omega) hkl) hx2
  exact List.Pairwise.sublist (List.take_sublist _ _) hins

/-- C7: after any sequence of insertions into an initially empty queue, the
bid queue is non-increasing in price from front to back and never holds more
than `MaximumBids` entries (the lowest-price tail is truncated away on every
insertion). -/
theorem bid_queue_sorted_and_bounded (m : Nat) (bids : List Bid) :
    SortedByPriceDesc (add_bids m bids) ∧ (add_bids m bids).length ≤ m := by
  suffices h : ∀ (q : List Bid), SortedByPriceDesc q → q.length ≤ m →
      SortedByPriceDesc (bids.foldl (fun q b => add_bid_to m b q) q) ∧
      (bids.foldl (fun q b => add_bid_to m b q) q).length ≤ m by
    exact h [] (List.Pairwise.nil) (by simp)
  induction bids with
  | nil => intro q h1 h2; exact ⟨h1, h2⟩
  | cons b rest ih =>
    intro q h1 h2
    refine ih (add_bid_to m b q) (add_bid_to_sorted m b q h1) ?_
    simp [add_bid_to]

end Stablecoin

namespace Stablecoin

/-- The handout loop over one-share-each shareholders, when the amount is
smaller than the shareholder count: `coins_per_share` is clamped to 1,
`pay_extra` is false, and the first `amount` shareholders get one coin each
(the `break` then stops the loop), so the loop pays out exactly `amount`. -/
theorem handLoop_uniform_lt (amount len : Nat) (hlt : amount < len) :
    ∀ (suffix : List (Nat × Nat)) (i payed : Nat) (bal : Balances),
      (∀ x ∈ suffix, x.2 = 1) → i + suffix.length = len → payed = min i amount →
      ∀ balOut payedOut trOut,
        handLoop amount 1 false len suffix i payed bal = (balOut, payedOut, trOut) →
        payedOut = amount ∧ trOut.length = suffix.length ∧
        payed + trOut.sum = payedOut ∧ ∀ q ∈ trOut, q ≤ 1 := by
  intro suffix
  induction suffix with
  | nil =>
    intro i payed bal hu hilen hpay balOut payedOut trOut hrun
    simp only [handLoop] at hrun
    cases hrun
    simp only [List.length_nil] at hilen
    exact ⟨by omega, rfl, by simp, by simp⟩
  | cons hd rest ih =>
    intro i payed bal hu hilen hpay balOut payedOut trOut hrun
    obtain ⟨acc, num⟩ := hd
    have hnum : num = 1 := hu (acc, num) (by simp)
    subst hnum
    by_cases hbreak : amount ≤ payed
    · simp only [handLoop, if_pos hbreak] at hrun
      cases hrun
      refine ⟨by omega, by simp, by simp, ?_⟩
      intro q hq
      have := List.eq_of_mem_replicate hq
      omega
    · simp only [handLoop, if_neg hbreak, Bool.false_and, Bool.false_eq_true,
        if_false, decide_eq_true_eq] at hrun
      cases hrec : handLoop amount 1 false len rest (i + 1)
          (payed + min (amount - payed) (1 * 1 + 0)) (addBalWrapped bal acc (min (amount - payed) (1 * 1 + 0))) with
      | mk b2 pp =>
        obtain ⟨p2, tr⟩ := pp
        rw [hrec] at hrun
        cases hrun
        have hpv : min (amount - payed) (1 * 1 + 0) = 1 := by omega
        obtain ⟨c1, c2, c3, c4⟩ := ih (i + 1) (payed + min (amount - payed) (1 * 1 + 0))
          (addBalWrapped bal acc (min (amount - payed) (1 * 1 + 0)))
          (fun x hx => hu x (by simp [hx])) (by simp at hilen ⊢; omega) (by omega)
          b2 p2 tr hrec
        refine ⟨c1, by simp [c2], ?_, ?_⟩
        · simp only [List.sum_cons]
          omega
        · intro q hq
          rcases List.mem_cons.mp hq with h | h
          · omega
          · exact c4 q h

end Stablecoin

namespace Stablecoin

/-- The handout loop over one-share-each shareholders when the amount is at
least the shareholder count: `coins_per_share = amount / len`, the first
`amount % len` shareholders get one extra coin, the `min` cap and the `break`
never bite, and the loop pays out exactly `amount` with every payout between
`amount / len` and `amount / len + 1`. -/
theorem handLoop_uniform_ge (amount len : Nat) (hlen : 0 < len) (hge : len ≤ amount) :
    ∀ (suffix : List (Nat × Nat)) (i payed : Nat) (bal : Balances),
      (∀ x ∈ suffix, x.2 = 1) → i + suffix.length = len →
      payed = i * (amount / len) + min i (amount % len) →
      ∀ balOut payedOut trOut,
        handLoop amount (amount / len) (decide (amount / len * len < amount)) len
          suffix i payed bal = (balOut, payedOut, trOut) →
        payedOut = amount ∧ trOut.length = suffix.length ∧
        payed + trOut.sum = payedOut ∧
        ∀ q ∈ trOut, amount / len ≤ q ∧ q ≤ amount / len + 1 := by
  have hd1 : 1 ≤ amount / len := (Nat.one_le_div_iff hlen).mpr hge
  have hdm : len * (amount / len) + amount % len = amount := Nat.div_add_mod amount len
  have hmod : amount % len < len := Nat.mod_lt _ hlen
  intro suffix
  induction suffix with
  | nil =>
    intro i payed bal hu hilen hpay balOut payedOut trOut hrun
    simp only [handLoop] at hrun
    cases hrun
    simp only [List.length_nil, Nat.add_zero] at hilen
    subst hilen
    refine ⟨by omega, rfl, by simp, by simp⟩
  | cons hd rest ih =>
    intro i payed bal hu hilen hpay balOut payedOut trOut hrun
    obtain ⟨acc, num⟩ := hd
    have hnum : num = 1 := hu (acc, num) (by simp)
    subst hnum
    have hi : i < len := by simp at hilen; omega
    have hmul : (i + 1) * (amount / len) = i * (amount / len) + amount / len := by ring
    have hmul2 : (i + 1) * (amount / len) ≤ len * (amount / len) :=
      Nat.mul_le_mul (by omega) (le_refl _)
    by_cases hbreak : amount ≤ payed
    · omega
    · simp only [handLoop, if_neg hbreak] at hrun
      by_cases hir : i < amount % len
      · have hpe : amount / len * len < amount := by
          have hc : amount / len * len = len * (amount / len) := Nat.mul_comm _ _
          omega
        have hval : (if (decide (amount / len * len < amount) && decide (i < amount % len)) = true
            then 1 else 0) = 1 := by simp [hpe, hir]
        rw [hval] at hrun
        have hpv : min (amount - payed) (1 * (amount / len) + 1) = amount / len + 1 := by
          have h1m : 1 * (amount / len) = amount / len := Nat.one_mul _
          omega
        rw [hpv] at hrun
        cases hrec : handLoop amount (amount / len) (decide (amount / len * len < amount)) len
            rest (i + 1) (payed + (amount / len + 1))
            (addBalWrapped bal acc (amount / len + 1)) with
        | mk b2 pp =>
          obtain ⟨p2, tr⟩ := pp
          rw [hrec] at hrun
          cases hrun
          obtain ⟨c1, c2, c3, c4⟩ := ih (i + 1) (payed + (amount / len + 1))
            (addBalWrapped bal acc (amount / len + 1))
            (fun x hx => hu x (by simp [hx])) (by simp at hilen ⊢; omega) (by omega)
            b2 p2 tr hrec
          refine ⟨c1, by simp [c2], ?_, ?_⟩
          · simp only [List.sum_cons]
            omega
          · intro q hq
            rcases List.mem_cons.mp hq with h | h
            · omega
            · exact c4 q h
      · have hval : (if (decide (amount / len * len < amount) && decide (i < amount % len)) = true
            then 1 else 0) = 0 := by simp [hir]
        rw [hval] at hrun
        have hpv : min (amount - payed) (1 * (amount / len) + 0) = amount / len := by
          have h1m : 1 * (amount / len) = amount / len := Nat.one_mul _
          omega
        rw [hpv] at hrun
        cases hrec : handLoop amount (amount / len) (decide (amount / len * len < amount)) len
            rest (i + 1) (payed + amount / len)
            (addBalWrapped bal acc (amount / len)) with
        | mk b2 pp =>
          obtain ⟨p2, tr⟩ := pp
          rw [hrec] at hrun
          cases hrun
          obtain ⟨c1, c2, c3, c4⟩ := ih (i + 1) (payed + amount / len)
            (addBalWrapped bal acc (amount / len))
            (fun x hx => hu x (by simp [hx])) (by simp at hilen ⊢; omega) (by omega)
            b2 p2 tr hrec
          refine ⟨c1, by simp [c2], ?_, ?_⟩
          · simp only [List.sum_cons]
            omega
          · intro q hq
            rcases List.mem_cons.mp hq with h | h
            · omega
            · exact c4 q h

end Stablecoin

namespace Stablecoin

/-- Accounting of the handout loop: the paid total never exceeds `amount`,
and as long as the ledger total plus the outstanding budget stays inside
`u64` no balance write wraps, so the ledger total grows by exactly what was
paid. -/
theorem handLoop_balSum (amount cps : Nat) (payExtra : Bool) (len : Nat) :
    ∀ (suffix : List (Nat × Nat)) (i payed : Nat) (bal : Balances),
      payed ≤ amount → balSum bal + (amount - payed) < U64LIMIT →
      ∀ balOut payedOut trOut,
        handLoop amount cps payExtra len suffix i payed bal = (balOut, payedOut, trOut) →
        payed ≤ payedOut ∧ payedOut ≤ amount ∧
        balSum balOut + payed = balSum bal + payedOut := by
  intro suffix
  induction suffix with
  | nil =>
    intro i payed bal hp hb balOut payedOut trOut hrun
    simp only [handLoop] at hrun
    cases hrun
    omega
  | cons hd rest ih =>
    intro i payed bal hp hb balOut payedOut trOut hrun
    obtain ⟨acc, num⟩ := hd
    by_cases hbreak : amount ≤ payed
    · simp only [handLoop, if_pos hbreak] at hrun
      cases hrun
      omega
    · simp only [handLoop, if_neg hbreak] at hrun
      generalize hpv : min (amount - payed)
          (num * cps + if (payExtra && decide (i < amount % len)) = true then 1 else 0) = pv at hrun
      have hpvle : pv ≤ amount - payed := by
        rw [← hpv]; exact min_le_left _ _
      have hget := getBal_le_balSum bal acc
      have hnw : getBal bal acc + pv < U64LIMIT := by omega
      have haw : addBalWrapped bal acc pv = setBal bal acc (getBal bal acc + pv) := by
        rw [addBalWrapped, Nat.mod_eq_of_lt hnw]
      have hbs := balSum_setBal bal acc (getBal bal acc + pv)
      cases hrec : handLoop amount cps payExtra len rest (i + 1) (payed + pv)
          (addBalWrapped bal acc pv) with
      | mk b2 pp =>
        obtain ⟨p2, tr⟩ := pp
        rw [hrec] at hrun
        obtain ⟨c1, c2, c3⟩ := ih (i + 1) (payed + pv) (addBalWrapped bal acc pv)
          (by omega) (by rw [haw]; omega) b2 p2 tr hrec
        rw [haw] at c3
        have hrun2 : (b2, p2, pv :: tr) = (balOut, payedOut, trOut) := hrun
        cases hrun2
        omega

end Stablecoin

namespace Stablecoin

/-- Behaviour of `hand_out_coins_to_shareholders` on a one-share-per-holder
registry whose `ShareSupply` matches the holder count: the call succeeds
(increasing the supply by `amount` and writing the loop's balances), the loop
pays out exactly `amount`, and each holder's recorded payout is the floor
`amount / len` or one more. -/
theorem hand_out_uniform_core (s : St) (amount : Nat)
    (hu : ∀ x ∈ s.shares, x.2 = 1) (hsup : s.shareSupply = s.shares.length)
    (hlen : 0 < s.shares.length) (hfit : s.coinSupply + amount < U64LIMIT) :
    hand_out_coins_to_shareholders s amount =
      .ok { s with
        coinSupply := s.coinSupply + amount,
        balance := (handLoop amount (max 1 (amount / s.shareSupply))
          (decide (max 1 (amount / s.shareSupply) * s.shares.length < amount))
          s.shares.length s.shares 0 0 s.balance).1 } ∧
    ∀ balOut payedOut trOut,
      handLoop amount (max 1 (amount / s.shareSupply))
        (decide (max 1 (amount / s.shareSupply) * s.shares.length < amount))
        s.shares.length s.shares 0 0 s.balance = (balOut, payedOut, trOut) →
      payedOut = amount ∧ trOut.sum = amount ∧ trOut.length = s.shares.length ∧
      ∀ q ∈ trOut, amount / s.shares.length ≤ q ∧ q ≤ amount / s.shares.length + 1 := by
  have hsup0 : ¬ s.shareSupply = 0 := by rw [hsup]; omega
  have hadd : checkedAdd s.coinSupply amount = some (s.coinSupply + amount) := by
    simp [checkedAdd, hfit]
  cases hrec : handLoop amount (max 1 (amount / s.shareSupply))
      (decide (max 1 (amount / s.shareSupply) * s.shares.length < amount))
      s.shares.length s.shares 0 0 s.balance with
  | mk balOut pp =>
    obtain ⟨payedOut, trOut⟩ := pp
    have hrec2 := hrec
    have hfacts : payedOut = amount ∧ trOut.sum = amount ∧ trOut.length = s.shares.length ∧
        ∀ q ∈ trOut, amount / s.shares.length ≤ q ∧ q ≤ amount / s.shares.length + 1 := by
      rcases Nat.lt_or_ge amount s.shares.length with hlt | hge
      · have hdiv0 : amount / s.shares.length = 0 := Nat.div_eq_of_lt hlt
        have hmax : max 1 (amount / s.shareSupply) = 1 := by
          rw [hsup, hdiv0]
          simp
        have hpe : decide (max 1 (amount / s.shareSupply) * s.shares.length < amount) = false := by
          rw [hmax, Nat.one_mul]
          exact decide_eq_false (by omega)
        rw [hpe, hmax] at hrec2
        obtain ⟨c1, c2, c3, c4⟩ := handLoop_uniform_lt amount s.shares.length hlt
          s.shares 0 0 s.balance hu (by omega) (by simp) balOut payedOut trOut hrec2
        refine ⟨c1, by omega, c2, ?_⟩
        intro q hq
        have := c4 q hq
        omega
      · have hd1 : 1 ≤ amount / s.shares.length := (Nat.one_le_div_iff hlen).mpr hge
        have hmax : max 1 (amount / s.shareSupply) = amount / s.shares.length := by
          rw [hsup]
          exact max_eq_right hd1
        rw [hmax] at hrec2
        obtain ⟨c1, c2, c3, c4⟩ := handLoop_uniform_ge amount s.shares.length hlen hge
          s.shares 0 0 s.balance hu (by omega) (by simp) balOut payedOut trOut hrec2
        exact ⟨c1, by omega, c2, c4⟩
    constructor
    · simp only [hand_out_coins_to_shareholders, if_neg hsup0, hadd, hrec]
      rw [if_pos hfacts.1]
    · intro b p t heq
      cases heq
      exact hfacts

end Stablecoin

namespace Stablecoin

/-- C4 (amended): on a registry where every shareholder holds exactly one
share and `ShareSupply` equals the holder count (the only kind the pallet's
own tests and `init_with_shareholders` produce), `hand_out_coins_to_shareholders`
succeeds and distributes exactly `amount`: the loop's paid total and the sum
of the per-shareholder payouts (third component of `handLoop`, the trace of
the loop's `payout` variable) equal `amount`, and every shareholder receives
at least the floor `amount / shareCount` and at most one coin more. -/
theorem hand_out_distributes_exactly (s : St) (amount : Nat) (h0 : 0 < amount)
    (hu : ∀ x ∈ s.shares, x.2 = 1) (hsup : s.shareSupply = s.shares.length)
    (hlen : 0 < s.shares.length) (hfit : s.coinSupply + amount < U64LIMIT) :
    (∃ s2, hand_out_coins_to_shareholders s amount = .ok s2) ∧
    ∀ balOut payedOut trOut,
      handLoop amount (max 1 (amount / s.shareSupply))
        (decide (max 1 (amount / s.shareSupply) * s.shares.length < amount))
        s.shares.length s.shares 0 0 s.balance = (balOut, payedOut, trOut) →
      payedOut = amount ∧ trOut.sum = amount ∧ trOut.length = s.shares.length ∧
      ∀ q ∈ trOut, amount / s.shares.length ≤ q ∧ q ≤ amount / s.shares.length + 1 := by
  obtain ⟨h1, h2⟩ := hand_out_uniform_core s amount hu hsup hlen hfit
  exact ⟨⟨_, h1⟩, h2⟩

theorem hand_out_distributes_exactly_witness :
    (∃ s2, hand_out_coins_to_shareholders stTenShareholders 25 = .ok s2) ∧
    (handLoop 25 (max 1 (25 / stTenShareholders.shareSupply))
      (decide (max 1 (25 / stTenShareholders.shareSupply) * stTenShareholders.shares.length < 25))
      stTenShareholders.shares.length stTenShareholders.shares 0 0
      stTenShareholders.balance).2.2.sum = 25 := by
  obtain ⟨h1, h2⟩ := hand_out_distributes_exactly stTenShareholders 25
    (by decide) (by decide) (by decide) (by decide) (by decide)
  exact ⟨h1, (h2 _ _ _ rfl).2.1⟩

end Stablecoin

namespace Stablecoin

theorem bondSum_nil (blockNumber : Nat) : bondSum blockNumber [] = 0 := by
  simp [bondSum]

/-- A transfer between two distinct accounts preserves the conservation
bundle: on success the ledger total is unchanged (debit and credit cancel),
and on failure nothing was written. -/
theorem transfer_preserves_goodSt (s : St) (a b m : Nat) (hab : a ≠ b)
    (hG : GoodSt s) : GoodSt (outSt (transfer s a b m)) := by
  obtain ⟨hcons, hbonds, hu, hsup, hlen, hlim⟩ := hG
  cases h1 : checkedSub (getBal s.balance a) m with
  | none =>
    simp only [transfer, h1]
    exact ⟨hcons, hbonds, hu, hsup, hlen, hlim⟩
  | some uf =>
    cases h2 : checkedAdd (getBal s.balance b) m with
    | none =>
      simp only [transfer, h1, h2]
      exact ⟨hcons, hbonds, hu, hsup, hlen, hlim⟩
    | some ut =>
      simp only [checkedSub] at h1
      simp only [checkedAdd] at h2
      by_cases hm : m ≤ getBal s.balance a
      · rw [if_pos hm] at h1
        by_cases hv : getBal s.balance b + m < U64LIMIT
        · rw [if_pos hv] at h2
          cases h1
          cases h2
          simp only [transfer, checkedSub, if_pos hm, checkedAdd, if_pos hv, outSt]
          have e1 := balSum_setBal s.balance a (getBal s.balance a - m)
          have e2 := balSum_setBal (setBal s.balance a (getBal s.balance a - m)) b
            (getBal s.balance b + m)
          have e3 : getBal (setBal s.balance a (getBal s.balance a - m)) b =
              getBal s.balance b := getBal_setBal_ne _ a b _ hab
          refine ⟨?_, hbonds, hu, hsup, hlen, hlim⟩
          show s.coinSupply = balSum (setBal (setBal s.balance a (getBal s.balance a - m)) b
            (getBal s.balance b + m)) + bondSum s.blockNumber s.bonds
          simp only [conservation] at hcons
          rw [hbonds, bondSum_nil] at hcons ⊢
          omega
        · rw [if_neg hv] at h2
          cases h2
      · rw [if_neg hm] at h1
        cases h1

/-- A bond bid preserves the conservation bundle: validation failures write
nothing, and a successful bid only appends to the bid queue — no balance, no
supply and no bond changes. -/
theorem bid_preserves_goodSt (cfg : Cfg) (s : St) (who price : Nat) (payout : Int)
    (hG : GoodSt s) : GoodSt (outSt (bid_for_bond cfg s who price payout)) := by
  obtain ⟨hcons, hbonds, hu, hsup, hlen, hlim⟩ := hG
  unfold bid_for_bond add_bid
  split
  · exact ⟨hcons, hbonds, hu, hsup, hlen, hlim⟩
  · split
    · exact ⟨hcons, hbonds, hu, hsup, hlen, hlim⟩
    · split
      · exact ⟨hcons, hbonds, hu, hsup, hlen, hlim⟩
      · dsimp only
        split
        · exact ⟨hcons, hbonds, hu, hsup, hlen, hlim⟩
        · exact ⟨hcons, hbonds, hu, hsup, hlen, hlim⟩

end Stablecoin

namespace Stablecoin

/-- Effects of a successful uniform handout: supply and ledger total both
grow by exactly `amount`; every other storage item is untouched. -/
theorem hand_out_uniform_effects (s : St) (amount : Nat)
    (hu : ∀ x ∈ s.shares, x.2 = 1) (hsup : s.shareSupply = s.shares.length)
    (hlen : 0 < s.shares.length) (hfit : s.coinSupply + amount < U64LIMIT)
    (hbal : balSum s.balance + amount < U64LIMIT) :
    ∃ s2, hand_out_coins_to_shareholders s amount = .ok s2 ∧
      s2.coinSupply = s.coinSupply + amount ∧
      balSum s2.balance = balSum s.balance + amount ∧
      s2.shares = s.shares ∧ s2.shareSupply = s.shareSupply ∧
      s2.bonds = s.bonds ∧ s2.bondBids = s.bondBids ∧ s2.blockNumber = s.blockNumber := by
  obtain ⟨hok, hfacts⟩ := hand_out_uniform_core s amount hu hsup hlen hfit
  cases hhl : handLoop amount (max 1 (amount / s.shareSupply))
      (decide (max 1 (amount / s.shareSupply) * s.shares.length < amount))
      s.shares.length s.shares 0 0 s.balance with
  | mk balOut pp =>
    obtain ⟨payedOut, trOut⟩ := pp
    obtain ⟨c1, c2, c3, c4⟩ := hfacts balOut payedOut trOut hhl
    obtain ⟨d1, d2, d3⟩ := handLoop_balSum amount (max 1 (amount / s.shareSupply))
      (decide (max 1 (amount / s.shareSupply) * s.shares.length < amount))
      s.shares.length s.shares 0 0 s.balance (by omega) (by omega)
      balOut payedOut trOut hhl
    rw [hhl] at hok
    exact ⟨_, hok, rfl, by show balSum balOut = _; omega, rfl, rfl, rfl, rfl, rfl⟩

/-- Supply expansion preserves the conservation bundle: with no bonds queued
the whole amount goes to the (one-share-each) shareholders, minting and
crediting the same `amount`; every failure before the distribution writes
nothing. -/
theorem expand_preserves_goodSt (s : St) (amount : Nat) (hG : GoodSt s) :
    GoodSt (outSt (expand_supply s amount)) := by
  obtain ⟨hcons, hbonds, hu, hsup, hlen, hlim⟩ := hG
  cases hadd : checkedAdd s.coinSupply amount with
  | none =>
    simp only [expand_supply, hadd]
    exact ⟨hcons, hbonds, hu, hsup, hlen, hlim⟩
  | some total =>
    have hfit : s.coinSupply + amount < U64LIMIT := by
      by_contra hc
      simp [checkedAdd, hc] at hadd
    have hloop : expandLoop s.blockNumber s.bonds amount s.balance =
        ([], amount, s.balance) := by
      rw [hbonds]
      rfl
    have hadd0 : checkedAdd ({ s with balance := s.balance } : St).coinSupply
        (amount - amount) = some (s.coinSupply + (amount - amount)) := by
      simp only [checkedAdd]
      rw [if_pos (by omega)]
    simp only [expand_supply, hadd, hloop, try_increase_coin_supply, hadd0]
    rw [Nat.sub_self, Nat.add_zero]
    have hbs : balSum s.balance = s.coinSupply := by
      simp only [conservation] at hcons
      rw [hbonds, bondSum_nil] at hcons
      omega
    by_cases hrem : 0 < amount
    · rw [if_pos hrem]
      obtain ⟨s2, hok, e1, e2, e3, e4, e5, e6, e7⟩ := hand_out_uniform_effects
        ({ s with bonds := [] } : St) amount hu hsup hlen
        (by show s.coinSupply + amount < U64LIMIT; omega)
        (by show balSum s.balance + amount < U64LIMIT; omega)
      rw [hok]
      show GoodSt s2
      have e1a : s2.coinSupply = s.coinSupply + amount := e1
      have e2a : balSum s2.balance = balSum s.balance + amount := e2
      have e3a : s2.shares = s.shares := e3
      have e4a : s2.shareSupply = s.shareSupply := e4
      have e5a : s2.bonds = [] := e5
      refine ⟨?_, e5a, ?_, ?_, ?_, by omega⟩
      · show s2.coinSupply = balSum s2.balance + bondSum s2.blockNumber s2.bonds
        rw [e5a, bondSum_nil]
        omega
      · rw [e3a]
        exact hu
      · rw [e4a, e3a]
        exact hsup
      · rw [e3a]
        exact hlen
    · rw [if_neg hrem]
      refine ⟨?_, rfl, hu, hsup, hlen, by show s.coinSupply < U64LIMIT; omega⟩
      show s.coinSupply = balSum s.balance + bondSum s.blockNumber []
      rw [bondSum_nil]
      omega

end Stablecoin

namespace Stablecoin

/-- C1 (amended): conservation holds for the operations that respect it.
Starting from `init_with_shareholders` with a non-empty shareholder list,
after any sequence of transfers between distinct accounts, bond bids, and
supply expansions, `CoinSupply` equals the sum of all balances plus the sum
of unexpired queued bond payouts (the bond queue in fact stays empty).  The
claim as frozen is false: `contract_supply` consuming a bid burns fewer coins
than the bond payouts it queues, and a self-transfer inflates the ledger, so
those two operations are excluded — the counterexample theorem exhibits both
breakages. -/
theorem conservation_for_allowed_ops (cfg : Cfg) (f : Nat) (accts : List Nat)
    (hne : accts ≠ []) (ops : List Op) (hops : ∀ op ∈ ops, AllowedOp op) :
    conservation (run cfg (outSt (init_with_shareholders emptySt f accts)) ops) := by
  have hlen : 0 < accts.length := List.length_pos.mpr hne
  obtain ⟨s2, hok, e1, e2, e3, e4, e5, e6, e7⟩ := hand_out_uniform_effects
    ({ emptySt with shares := accts.map (fun a => (a, 1)), shareSupply := accts.length } : St)
    COIN_SUPPLY
    (by
      intro x hx
      simp only [List.mem_map] at hx
      obtain ⟨a, _, rfl⟩ := hx
      rfl)
    (by simp)
    (by simpa using hlen)
    (by show emptySt.coinSupply + COIN_SUPPLY < U64LIMIT; decide)
    (by show balSum emptySt.balance + COIN_SUPPLY < U64LIMIT; decide)
  have hinit : init_with_shareholders emptySt f accts = .ok { s2 with initDone := true } := by
    simp only [init_with_shareholders]
    rw [if_neg (by decide), hok]
  have a1 : s2.coinSupply = 0 + COIN_SUPPLY := e1
  have a2 : balSum s2.balance = 0 + COIN_SUPPLY := e2
  have a3 : s2.shares = accts.map (fun a => (a, 1)) := e3
  have a4 : s2.shareSupply = accts.length := e4
  have a5 : s2.bonds = [] := e5
  have hG0 : GoodSt ({ s2 with initDone := true } : St) := by
    refine ⟨?_, a5, ?_, ?_, ?_, ?_⟩
    · show s2.coinSupply = balSum s2.balance + bondSum s2.blockNumber s2.bonds
      rw [a5, bondSum_nil]
      omega
    · show ∀ x ∈ s2.shares, x.2 = 1
      rw [a3]
      intro x hx
      simp only [List.mem_map] at hx
      obtain ⟨a, _, rfl⟩ := hx
      rfl
    · show s2.shareSupply = s2.shares.length
      rw [a3, a4]
      simp
    · show 0 < s2.shares.length
      rw [a3]
      simpa using hlen
    · show s2.coinSupply < U64LIMIT
      have : (0 : Nat) + COIN_SUPPLY < U64LIMIT := by decide
      omega
  have hrun : ∀ (l : List Op) (s : St), (∀ op ∈ l, AllowedOp op) → GoodSt s →
      GoodSt (run cfg s l) := by
    intro l
    induction l with
    | nil => intro s _ hG; exact hG
    | cons op rest ih =>
      intro s hops2 hG
      have hop := hops2 op (by simp)
      have hrest : ∀ op2 ∈ rest, AllowedOp op2 := fun op2 h2 => hops2 op2 (by simp [h2])
      have hstep : GoodSt (applyOp cfg s op) := by
        cases hop with
        | transferOp a b m hab => exact transfer_preserves_goodSt s a b m hab hG
        | bidOp who price payout => exact bid_preserves_goodSt cfg s who price payout hG
        | expandOp amount => exact expand_preserves_goodSt s amount hG
      exact ih (applyOp cfg s op) hrest hstep
  rw [hinit]
  exact (hrun ops ({ s2 with initDone := true } : St) hops hG0).1

theorem conservation_for_allowed_ops_witness :
    conservation (run testCfg (outSt (init_with_shareholders emptySt 1 [1, 2, 3, 4]))
      [Op.transferOp 1 2 5, Op.bidOp 3 800000000 1250000000, Op.expandOp 77]) :=
  conservation_for_allowed_ops testCfg 1 [1, 2, 3, 4] (by decide)
    [Op.transferOp 1 2 5, Op.bidOp 3 800000000 1250000000, Op.expandOp 77]
    (by
      intro op hop
      simp only [List.mem_cons, List.not_mem_nil, or_false] at hop
      rcases hop with rfl | rfl | rfl
      · exact AllowedOp.transferOp 1 2 5 (by decide)
      · exact AllowedOp.bidOp 3 800000000 1250000000
      · exact AllowedOp.expandOp 77)

end Stablecoin
